import Mathlib

/-!
Verification of the genome breakpoint-graph engine of the Bioinformatics
repository.

The definitions below are shallow embeddings of the Python functions in
`src/utils/genome_graph.py`, `src/FragileRegions.py` and
`src/genome_rearrangement/fragile_regions.py`.  Python integers are
modelled by `Int`; Python `%` on a positive modulus is `Int.emod`
(the `%` notation on `Int`).  Python `x / 2` on ints is TRUE division:
it yields the IEEE-754 double nearest to the exact quotient (round to
nearest, ties to even), so `int(x / 2)` is `pyHalf x`, which rounds the
numerator through 53-bit precision before the exact truncated halving —
it agrees with `Int.tdiv x 2` only for `|x| ≤ 2 ^ 53`.  Python lists
are `List`; code that raises an exception is modelled with `Option`
(`none` marks the raised exception).
-/

/-- Floor of the base-2 logarithm, computed by fuel-bounded halving
(`log2Fuel n n` always has enough fuel since `⌊log2 n⌋ < n` for
`n ≥ 1`); structural recursion on the fuel keeps the definition
kernel-computable. -/
def log2Fuel : Nat → Nat → Nat
  | 0, _ => 0
  | fuel + 1, n => if n ≤ 1 then 0 else log2Fuel fuel (n / 2) + 1

/-- `natLog2 n = ⌊log2 n⌋` for `n ≥ 1` (and `0` at `0`). -/
def natLog2 (n : Nat) : Nat := log2Fuel n n

/-- The value of the IEEE-754 double nearest to the integer `x` (round
to nearest, ties to even, 53-bit significand), as an integer — every
double obtained by rounding an integer of magnitude `> 2 ^ 53` is a
multiple of `2 ^ (⌊log2 |x|⌋ - 52)`, and smaller integers are exact.
This is the value of Python's `float(x)`.  Quotients beyond the double
range (magnitude `≥ 2 ^ 1024`) additionally raise `OverflowError` in
Python; all bounded statements below stay far inside the finite range,
and the counterexamples sit at `2 ^ 53`-scale values where this
rounding is exactly what the interpreter computes. -/
def floatRound (x : Int) : Int :=
  if x.natAbs ≤ 2 ^ 53 then x
  else
    let n := x.natAbs
    let e := natLog2 n - 52
    let q := n / 2 ^ e
    let r := n % 2 ^ e
    let q2 :=
      if r < 2 ^ (e - 1) then q
      else if 2 ^ (e - 1) < r then q + 1
      else if q % 2 = 0 then q else q + 1
    Int.sign x * ((q2 * 2 ^ e : Nat) : Int)

/-- Model of Python `int(v / 2)` on arbitrary-precision ints: `v / 2`
is the correctly rounded double of the exact quotient, which equals
`floatRound v / 2` because halving is exact in binary floating point;
`int(...)` then truncates towards zero.  `floatRound v` is even
whenever `|v| > 2 ^ 53`, and for smaller odd `v` the half-integer
quotient is exactly representable, so the final truncated division by
`2` is exact in both cases. -/
def pyHalf (v : Int) : Int :=
  Int.tdiv (floatRound v) 2

/-- Embedding of `chromosome_to_cycle` (src/utils/genome_graph.py lines
18-49): for each gene `g` in order, append `2*g - 1, 2*g` when `g > 0`
and `-2*g, -2*g - 1` otherwise. -/
def chromosome_to_cycle (chromosome : List Int) : List Int :=
  chromosome.flatMap (fun g =>
    if 0 < g then [2 * g - 1, 2 * g] else [-2 * g, -2 * g - 1])

/-- Embedding of `cycle_to_chromosome` (src/utils/genome_graph.py lines
52-79): the Python loop reads the nodes in consecutive pairs
`(nodes[2*i], nodes[2*i+1])` for `i < int(len(nodes)/2)`, so a trailing
unpaired node is ignored (the loop bound `int(len(nodes)/2)` equals
`⌊len/2⌋` exactly — list lengths stay far below `2 ^ 53`); the gene
values `int(nodes[2*i+1]/2)` and `int(-nodes[2*i]/2)` go through float
true division, modelled by `pyHalf`. -/
def cycle_to_chromosome : List Int → List Int
  | n0 :: n1 :: rest =>
      (if n0 < n1 then pyHalf n1 else pyHalf (-n0)) ::
        cycle_to_chromosome rest
  | _ => []

/-- First node of the pair `chromosome_to_cycle` emits for a gene
(helper used in proofs; `headNode g` is `nodes[2*i]` for gene `g` at
position `i`). -/
def headNode (g : Int) : Int :=
  if 0 < g then 2 * g - 1 else -2 * g

/-- Second node of the pair `chromosome_to_cycle` emits for a gene
(helper used in proofs; `tailNode g` is `nodes[2*i+1]` for gene `g` at
position `i`). -/
def tailNode (g : Int) : Int :=
  if 0 < g then 2 * g else -2 * g - 1

theorem chromosome_to_cycle_cons (g : Int) (cs : List Int) :
    chromosome_to_cycle (g :: cs) =
      headNode g :: tailNode g :: chromosome_to_cycle cs := by
  by_cases h : 0 < g <;>
    simp [chromosome_to_cycle, headNode, tailNode, h]

theorem tdiv_two_mul (g : Int) : Int.tdiv (2 * g) 2 = g :=
  Int.mul_tdiv_cancel_left g (by norm_num)

theorem floatRound_eq_self (x : Int) (h : x.natAbs ≤ 2 ^ 53) :
    floatRound x = x := by
  unfold floatRound
  rw [if_pos h]

theorem pyHalf_two_mul (g : Int) (h : g.natAbs ≤ 2 ^ 52) :
    pyHalf (2 * g) = g := by
  have h2 : (2 * g).natAbs ≤ 2 ^ 53 := by
    have ha : (2 : Int).natAbs = 2 := rfl
    rw [Int.natAbs_mul, ha]
    omega
  rw [pyHalf, floatRound_eq_self _ h2, tdiv_two_mul]

/-- C1 counterexample: for the valid chromosome `[2^53 + 1]` the
program's round trip fails — the decode step computes
`int((2^54 + 2) / 2)` through float true division, which rounds
`2^54 + 2` to `2^54` (tie to even) before halving, returning
`[2^53]` instead of `[2^53 + 1]`. -/
theorem cycle_roundtrip_counterexample :
    cycle_to_chromosome (chromosome_to_cycle [2 ^ 53 + 1]) = [2 ^ 53] ∧
      ([2 ^ 53] : List Int) ≠ [2 ^ 53 + 1] := by decide

/-- C1 amended: for every chromosome of nonzero genes with magnitude at
most `2^52` — so every node value has magnitude at most `2^53` and the
float divisions are exact — decoding the encoding returns the original
chromosome. -/
theorem cycle_roundtrip (c : List Int) (hnz : ∀ g ∈ c, g ≠ 0)
    (hsm : ∀ g ∈ c, g.natAbs ≤ 2 ^ 52) :
    cycle_to_chromosome (chromosome_to_cycle c) = c := by
  induction c with
  | nil => rfl
  | cons g cs ih =>
      have hg : g ≠ 0 := hnz g (List.mem_cons_self g cs)
      have hb : g.natAbs ≤ 2 ^ 52 := hsm g (List.mem_cons_self g cs)
      rw [chromosome_to_cycle_cons]
      by_cases h : 0 < g
      · have hlt : headNode g < tailNode g := by
          simp only [headNode, tailNode, if_pos h]; omega
        rw [cycle_to_chromosome, if_pos hlt,
          ih (fun x hx => hnz x (List.mem_cons_of_mem g hx))
            (fun x hx => hsm x (List.mem_cons_of_mem g hx))]
        simp only [tailNode, if_pos h, pyHalf_two_mul g hb]
      · have hlt : ¬ headNode g < tailNode g := by
          simp only [headNode, tailNode, if_neg h]; omega
        rw [cycle_to_chromosome, if_neg hlt,
          ih (fun x hx => hnz x (List.mem_cons_of_mem g hx))
            (fun x hx => hsm x (List.mem_cons_of_mem g hx))]
        have hneg : -(-2 * g) = 2 * g := by ring
        simp only [headNode, if_neg h, hneg, pyHalf_two_mul g hb]

/-- Witness for the amended C1 at the documented example chromosome
`[1, -2, 3]`. -/
theorem cycle_roundtrip_witness :
    (∀ g ∈ ([1, -2, 3] : List Int), g ≠ 0) ∧
      (∀ g ∈ ([1, -2, 3] : List Int), g.natAbs ≤ 2 ^ 52) ∧
      cycle_to_chromosome (chromosome_to_cycle [1, -2, 3]) = [1, -2, 3] :=
  ⟨by decide, by decide, cycle_roundtrip [1, -2, 3] (by decide) (by decide)⟩

/-- C8 counterexample: on the odd-length node sequence `[1, 2, 4, 3, 5]`
the code does not report any error; it silently ignores the trailing
node `5` and returns the chromosome `[1, -2]`. -/
theorem cycle_to_chromosome_odd_counterexample :
    cycle_to_chromosome [1, 2, 4, 3, 5] = [1, -2] := by decide

/-- C8 amended: `cycle_to_chromosome` never reports a malformed-input
error; on a node sequence of odd length it ignores the trailing unpaired
node, returning exactly what it returns on the even-length prefix. -/
theorem cycle_to_chromosome_odd_amended (nodes : List Int) (x : Int)
    (h : nodes.length % 2 = 0) :
    cycle_to_chromosome (nodes ++ [x]) = cycle_to_chromosome nodes := by
  obtain ⟨k, hk⟩ : ∃ k, nodes.length = 2 * k := ⟨nodes.length / 2, by omega⟩
  clear h
  induction k generalizing nodes with
  | zero =>
      have h0 : nodes.length = 0 := by omega
      rw [List.length_eq_zero.mp h0]
      rfl
  | succ k ih =>
      match nodes, hk with
      | n0 :: n1 :: rest, hk =>
          have hr : rest.length = 2 * k := by
            simp only [List.length_cons] at hk; omega
          simp only [List.cons_append, cycle_to_chromosome]
          congr 1
          exact ih rest hr

/-- Witness for the amended C8 at `nodes = [1, 2, 4, 3]`, `x = 5`. -/
theorem cycle_to_chromosome_odd_amended_witness :
    ([1, 2, 4, 3] : List Int).length % 2 = 0 ∧
      cycle_to_chromosome ([1, 2, 4, 3] ++ [5]) =
        cycle_to_chromosome [1, 2, 4, 3] :=
  ⟨by decide, cycle_to_chromosome_odd_amended [1, 2, 4, 3] 5 (by decide)⟩

/-- Embedding of the per-chromosome loop body of `colored_edges`
(src/utils/genome_graph.py lines 101-107): with `nodes` the cycle of the
chromosome, emit `(nodes[2*j+1], nodes[(2*j+2) % len(nodes)])` for each
gene index `j` in order.  The `getD` default is never read: the indices
are in bounds whenever the chromosome is nonempty, and the range is
empty otherwise. -/
def colored_edges_chrom (chromosome : List Int) : List (Int × Int) :=
  let nodes := chromosome_to_cycle chromosome
  (List.range chromosome.length).map (fun j =>
    (nodes.getD (2 * j + 1) 0, nodes.getD ((2 * j + 2) % nodes.length) 0))

/-- Embedding of `colored_edges` (src/utils/genome_graph.py lines
82-108): concatenate the per-chromosome edges in chromosome order. -/
def colored_edges (genome : List (List Int)) : List (Int × Int) :=
  genome.flatMap colored_edges_chrom

theorem chromosome_to_cycle_length (c : List Int) :
    (chromosome_to_cycle c).length = 2 * c.length := by
  induction c with
  | nil => rfl
  | cons g cs ih => rw [chromosome_to_cycle_cons]; simp [ih]; omega

theorem chromosome_to_cycle_getD_even (c : List Int) (j : Nat)
    (hj : j < c.length) :
    (chromosome_to_cycle c).getD (2 * j) 0 = headNode (c.getD j 0) := by
  induction c generalizing j with
  | nil => simp at hj
  | cons g cs ih =>
      rw [chromosome_to_cycle_cons]
      cases j with
      | zero => rfl
      | succ j =>
          have h2 : 2 * (j + 1) = (2 * j + 1) + 1 := by omega
          rw [h2, List.getD_cons_succ, List.getD_cons_succ,
            List.getD_cons_succ]
          exact ih j (by simpa using hj)

theorem chromosome_to_cycle_getD_odd (c : List Int) (j : Nat)
    (hj : j < c.length) :
    (chromosome_to_cycle c).getD (2 * j + 1) 0 = tailNode (c.getD j 0) := by
  induction c generalizing j with
  | nil => simp at hj
  | cons g cs ih =>
      rw [chromosome_to_cycle_cons]
      cases j with
      | zero => rfl
      | succ j =>
          have h2 : 2 * (j + 1) + 1 = (2 * j + 1 + 1) + 1 := by omega
          rw [h2, List.getD_cons_succ, List.getD_cons_succ,
            List.getD_cons_succ]
          exact ih j (by simpa using hj)

/-- Recursive characterization (helper used in proofs) of the edges a
single chromosome contributes: one edge from each gene's tail node to
the next gene's head node, the last edge closing on the node `w`. -/
def edgePairs : List Int → Int → List (Int × Int)
  | [], _ => []
  | [y], w => [(tailNode y, w)]
  | y :: z :: ys, w => (tailNode y, headNode z) :: edgePairs (z :: ys) w

theorem edgePairs_length (ys : List Int) (w : Int) :
    (edgePairs ys w).length = ys.length := by
  induction ys with
  | nil => rfl
  | cons y ys ih =>
      cases ys with
      | nil => rfl
      | cons z zs => simp only [edgePairs, List.length_cons] at ih ⊢; omega

theorem edgePairs_getD (ys : List Int) (w : Int) (j : Nat)
    (hj : j < ys.length) :
    (edgePairs ys w).getD j (0, 0) =
      (tailNode (ys.getD j 0),
        if j + 1 < ys.length then headNode (ys.getD (j + 1) 0) else w) := by
  induction ys generalizing j with
  | nil => simp at hj
  | cons y ys ih =>
      cases ys with
      | nil =>
          cases j with
          | zero => simp [edgePairs]
          | succ j =>
              simp only [List.length_cons, List.length_nil] at hj
              omega
      | cons z zs =>
          cases j with
          | zero => simp [edgePairs]
          | succ j =>
              simp only [edgePairs, List.getD_cons_succ]
              rw [ih j (by simp only [List.length_cons] at hj ⊢; omega)]
              simp only [List.length_cons, List.getD_cons_succ]
              by_cases hc : j + 1 < zs.length + 1
              · rw [if_pos hc, if_pos (by omega)]
              · rw [if_neg hc, if_neg (by omega)]

theorem colored_edges_chrom_getD (c : List Int) (j : Nat)
    (hj : j < c.length) :
    (colored_edges_chrom c).getD j (0, 0) =
      ((chromosome_to_cycle c).getD (2 * j + 1) 0,
        (chromosome_to_cycle c).getD
          ((2 * j + 2) % (chromosome_to_cycle c).length) 0) := by
  have hj1 : j < (colored_edges_chrom c).length := by
    simpa [colored_edges_chrom] using hj
  rw [List.getD_eq_getElem _ _ hj1]
  simp only [colored_edges_chrom]
  simp [List.getElem_map, List.getElem_range]

/-- The per-chromosome edge list computed by the source's index
arithmetic coincides with the recursive tail-to-head characterization,
the final edge wrapping back to the first gene's head node. -/
theorem colored_edges_chrom_eq (c0 : Int) (cs : List Int) :
    colored_edges_chrom (c0 :: cs) = edgePairs (c0 :: cs) (headNode c0) := by
  have hlen2 : (chromosome_to_cycle (c0 :: cs)).length = 2 * (c0 :: cs).length :=
    chromosome_to_cycle_length _
  apply List.ext_getElem
  · simp [colored_edges_chrom, edgePairs_length]
  intro j hj1 hj2
  have hj : j < (c0 :: cs).length := by
    simpa [colored_edges_chrom] using hj1
  rw [← List.getD_eq_getElem _ (0, 0) hj1, ← List.getD_eq_getElem _ (0, 0) hj2,
    colored_edges_chrom_getD _ _ hj, edgePairs_getD _ _ _ hj]
  have hfst := chromosome_to_cycle_getD_odd (c0 :: cs) j hj
  rw [hfst]
  by_cases hlast : j + 1 < (c0 :: cs).length
  · have hmod : (2 * j + 2) % (chromosome_to_cycle (c0 :: cs)).length
        = 2 * (j + 1) := by
      rw [hlen2]
      exact Nat.mod_eq_of_lt (by omega)
    rw [hmod, chromosome_to_cycle_getD_even _ _ hlast, if_pos hlast]
  · have hj1n : j + 1 = (c0 :: cs).length := by omega
    have hmod : (2 * j + 2) % (chromosome_to_cycle (c0 :: cs)).length = 0 := by
      rw [hlen2, ← hj1n]
      have h22 : 2 * (j + 1) = 2 * j + 2 := by ring
      rw [h22, Nat.mod_self]
    rw [hmod, if_neg hlast]
    have h0 := chromosome_to_cycle_getD_even (c0 :: cs) 0 (by simp)
    simp only [Nat.mul_zero] at h0
    rw [h0]
    rfl

/-- C5: `colored_edges` emits, per chromosome with cycle `n`, the edge
`(n[2j+1], n[(2j+2) % len(n)])` for each gene index `j` in order,
concatenated in chromosome order; its length is the total gene count;
and on `[[1,2,3,4]]` it yields `[(2,3),(4,5),(6,7),(8,1)]`. -/
theorem colored_edges_spec :
    (∀ genome : List (List Int),
      colored_edges genome = genome.flatMap (fun c =>
        (List.range c.length).map (fun j =>
          ((chromosome_to_cycle c).getD (2 * j + 1) 0,
            (chromosome_to_cycle c).getD
              ((2 * j + 2) % (chromosome_to_cycle c).length) 0)))) ∧
    (∀ genome : List (List Int),
      (colored_edges genome).length = (genome.map List.length).sum) ∧
    colored_edges [[1, 2, 3, 4]] = [(2, 3), (4, 5), (6, 7), (8, 1)] := by
  refine ⟨fun genome => rfl, fun genome => ?_, by decide⟩
  induction genome with
  | nil => rfl
  | cons c g ih =>
      simp only [colored_edges, List.flatMap_cons, List.length_append,
        List.map_cons, List.sum_cons]
      rw [← ih]
      simp [colored_edges, colored_edges_chrom]

/-- Gene appended by `graph_to_genome` for a walk node `init`
(src/utils/genome_graph.py lines 143-146): `int(init/2)` when `init` is
even, `int(-(init+1)/2)` when odd (Python `%` on modulus 2 is `emod`;
the divisions go through float true division, modelled by `pyHalf`). -/
def nodeGene (u : Int) : Int :=
  if u % 2 = 0 then pyHalf u else pyHalf (-(u + 1))

/-- Closing node computed by `graph_to_genome` from a chromosome's first
walk node (src/utils/genome_graph.py lines 134-137 and 157-160):
`init - 1` when `init` is even, `init + 1` when odd. -/
def nodeEnd (u : Int) : Int :=
  if u % 2 = 0 then u - 1 else u + 1

/-- Embedding of the `while` loop of `graph_to_genome`
(src/utils/genome_graph.py lines 142-168).  The loop cursor `i`
advances by one on every iteration and `init` always equals
`graph[i][0]`, so the loop is structural recursion on the remaining
edge suffix.  Arguments: remaining edges, current closing node `e`,
chromosome built so far, genome built so far.  When the edge list runs
out mid-walk the loop `break`s, returning the completed chromosomes and
discarding the in-progress one. -/
def graphWalk : List (Int × Int) → Int → List Int → List (List Int) →
    List (List Int)
  | [], _, _, genome => genome
  | (u, v) :: rest, e, chrom, genome =>
      if v = e then
        match rest with
        | [] => genome ++ [chrom ++ [nodeGene u]]
        | (u2, _) :: _ =>
            graphWalk rest (nodeEnd u2) [] (genome ++ [chrom ++ [nodeGene u]])
      else
        graphWalk rest e (chrom ++ [nodeGene u]) genome

/-- Entry into the walk (src/utils/genome_graph.py lines 130-141):
return the genome built so far when no edges remain, otherwise start a
chromosome at the first edge, with the closing node derived from its
first component. -/
def graphStart (graph : List (Int × Int)) (genome : List (List Int)) :
    List (List Int) :=
  match graph with
  | [] => genome
  | (u, _) :: _ => graphWalk graph (nodeEnd u) [] genome

/-- Embedding of `graph_to_genome` (src/utils/genome_graph.py lines
111-170). -/
def graph_to_genome (graph : List (Int × Int)) : List (List Int) :=
  graphStart graph []

theorem nodeEnd_tailNode (g : Int) : nodeEnd (tailNode g) = headNode g := by
  unfold nodeEnd tailNode headNode
  by_cases h : 0 < g
  · rw [if_pos h, if_pos h, if_pos (by omega : (2 * g) % 2 = 0)]
  · rw [if_neg h, if_neg h, if_neg (by omega : ¬ (-2 * g - 1) % 2 = 0)]
    ring

theorem nodeGene_tailNode (g : Int) (hb : g.natAbs ≤ 2 ^ 52) :
    nodeGene (tailNode g) = g := by
  unfold nodeGene tailNode
  by_cases h : 0 < g
  · rw [if_pos h, if_pos (by omega : (2 * g) % 2 = 0), pyHalf_two_mul g hb]
  · rw [if_neg h, if_neg (by omega : ¬ (-2 * g - 1) % 2 = 0)]
    have : -(-2 * g - 1 + 1) = 2 * g := by ring
    rw [this, pyHalf_two_mul g hb]

theorem headNode_injective (x y : Int) (h : headNode x = headNode y) :
    x = y := by
  unfold headNode at h
  by_cases hx : 0 < x <;> by_cases hy : 0 < y <;>
    simp only [if_pos, if_neg, hx, hy] at h <;> omega

/-- Walking the edges of one chromosome, followed by any remaining
edges: the walk appends each gene in order, closes exactly at the final
wrap-around edge, and hands the remaining edges back to `graphStart`.
The hypothesis rules out a premature close: no later gene of the
chromosome may have `e` as its head node. -/
theorem graphWalk_edgePairs (ys : List Int) (y : Int) (e : Int)
    (pre : List Int) (genome : List (List Int)) (rest : List (Int × Int))
    (hne : ∀ z ∈ ys, headNode z ≠ e)
    (hsm : ∀ z ∈ y :: ys, z.natAbs ≤ 2 ^ 52) :
    graphWalk (edgePairs (y :: ys) e ++ rest) e pre genome =
      graphStart rest (genome ++ [pre ++ y :: ys]) := by
  induction ys generalizing y pre genome with
  | nil =>
      have hy := nodeGene_tailNode y (hsm y (List.mem_cons_self y []))
      simp only [edgePairs, List.cons_append, List.nil_append, graphWalk,
        if_pos rfl]
      cases rest with
      | nil => simp [graphStart, hy]
      | cons r rs =>
          obtain ⟨u2, v2⟩ := r
          simp [graphStart, hy]
  | cons z zs ih =>
      have hz : headNode z ≠ e := hne z (List.mem_cons_self z zs)
      have hy := nodeGene_tailNode y (hsm y (List.mem_cons_self y (z :: zs)))
      simp only [edgePairs, List.cons_append, graphWalk, if_neg hz,
        hy, List.append_eq]
      rw [ih z (pre ++ [y]) genome
        (fun w hw => hne w (List.mem_cons_of_mem z hw))
        (fun w hw => hsm w (List.mem_cons_of_mem y hw))]
      simp

/-- C2 counterexample: for the valid single-gene genome `[[2^53 + 1]]`
— nonempty chromosome, no duplicate magnitudes — the reconstruction
computes the gene as `int((2^54 + 2) / 2)` through float true division,
which rounds to `2^53`, so the result `[[2^53]]` differs from the input
even up to chromosome order and rotation. -/
theorem genome_graph_roundtrip_counterexample :
    graph_to_genome (colored_edges [[2 ^ 53 + 1]]) = [[2 ^ 53]] ∧
      ([[2 ^ 53]] : List (List Int)) ≠ [[2 ^ 53 + 1]] := by decide

/-- C2 amended: for every genome whose chromosomes are nonempty, free
of duplicate gene magnitudes, and whose gene magnitudes are at most
`2^52` — so every node value has magnitude at most `2^53` and the float
divisions of the walk are exact — reconstructing from the colored edges
returns the genome exactly: each chromosome starts at the same gene
index as in the input, so equality up to chromosome order and rotation
holds in the strongest, literal form. -/
theorem genome_graph_roundtrip (genome : List (List Int))
    (hne : ∀ c ∈ genome, c ≠ [])
    (hnd : ∀ c ∈ genome, (c.map Int.natAbs).Nodup)
    (hsm : ∀ c ∈ genome, ∀ g ∈ c, g.natAbs ≤ 2 ^ 52) :
    graph_to_genome (colored_edges genome) = genome := by
  suffices h : ∀ acc, graphStart (colored_edges genome) acc = acc ++ genome by
    simpa [graph_to_genome] using h []
  induction genome with
  | nil => intro acc; simp [colored_edges, graphStart]
  | cons c g ih =>
      intro acc
      match c, hne c (List.mem_cons_self c g) with
      | c0 :: cs, _ =>
          have hstep : colored_edges ((c0 :: cs) :: g) =
              edgePairs (c0 :: cs) (headNode c0) ++ colored_edges g := by
            simp [colored_edges, colored_edges_chrom_eq]
          have hnodup : (((c0 :: cs).map Int.natAbs)).Nodup :=
            hnd _ (List.mem_cons_self _ g)
          have hzs : ∀ z ∈ cs, headNode z ≠ headNode c0 := by
            intro z hz habs
            have hz0 : z = c0 := headNode_injective z c0 habs
            simp only [List.map_cons, List.nodup_cons] at hnodup
            exact hnodup.1 (hz0 ▸ List.mem_map_of_mem Int.natAbs hz)
          have hwalk := graphWalk_edgePairs cs c0 (headNode c0) [] acc
            (colored_edges g) hzs (hsm (c0 :: cs) (List.mem_cons_self _ g))
          have hhead : graphStart
              (edgePairs (c0 :: cs) (headNode c0) ++ colored_edges g) acc =
              graphWalk (edgePairs (c0 :: cs) (headNode c0) ++ colored_edges g)
                (headNode c0) [] acc := by
            cases cs with
            | nil => simp [edgePairs, graphStart, nodeEnd_tailNode]
            | cons z zs => simp [edgePairs, graphStart, nodeEnd_tailNode]
          simp only [List.nil_append] at hwalk
          rw [hstep, hhead, hwalk]
          have ihg := ih (fun x hx => hne x (List.mem_cons_of_mem _ hx))
            (fun x hx => hnd x (List.mem_cons_of_mem _ hx))
            (fun x hx => hsm x (List.mem_cons_of_mem _ hx))
            (acc ++ [c0 :: cs])
          rw [ihg]
          simp

/-- Witness for the amended C2 at the genome `[[1, -2, 3], [4, 5]]`
from the source's documented example. -/
theorem genome_graph_roundtrip_witness :
    (∀ c ∈ ([[1, -2, 3], [4, 5]] : List (List Int)), c ≠ []) ∧
      (∀ c ∈ ([[1, -2, 3], [4, 5]] : List (List Int)),
        (c.map Int.natAbs).Nodup) ∧
      (∀ c ∈ ([[1, -2, 3], [4, 5]] : List (List Int)),
        ∀ g ∈ c, g.natAbs ≤ 2 ^ 52) ∧
      graph_to_genome (colored_edges [[1, -2, 3], [4, 5]]) =
        [[1, -2, 3], [4, 5]] :=
  ⟨by decide, by decide, by decide,
    genome_graph_roundtrip [[1, -2, 3], [4, 5]] (by decide) (by decide)
      (by decide)⟩

/-- Per-edge rewrite of `two_break_genome_graph`
(src/utils/genome_graph.py lines 192-202): the `if`/`elif` chain tests
the four patterns in order and falls through to the unchanged edge. -/
def rewriteEdge (a b c d : Int) (e : Int × Int) : Int × Int :=
  if e = (a, b) then (a, c)
  else if e = (b, a) then (b, d)
  else if e = (c, d) then (c, a)
  else if e = (d, c) then (d, b)
  else e

/-- Embedding of `two_break_genome_graph` (src/utils/genome_graph.py
lines 173-203): rewrite every edge in order. -/
def two_break_genome_graph (genome_graph : List (Int × Int))
    (a b c d : Int) : List (Int × Int) :=
  genome_graph.map (rewriteEdge a b c d)

/-- C3 counterexample: with `a = b = 1`, `c = 2`, `d = 3` the edge
`(1, 1)` equals `(b, a)`, so the claim requires its image to be
`(b, d) = (1, 3)`; the code matches the `(a, b)` pattern first and
produces `(a, c) = (1, 2)` instead. -/
theorem two_break_overlap_counterexample :
    two_break_genome_graph [((1 : Int), (1 : Int))] 1 1 2 3 = [(1, 2)] ∧
      ((1 : Int), (2 : Int)) ≠ ((1 : Int), (3 : Int)) := by decide

/-- C3 amended: for pairwise distinct nodes `a, b, c, d` the four
rewrite patterns are mutually exclusive, and `two_break_genome_graph`
maps each `(a,b)` to `(a,c)`, each `(b,a)` to `(b,d)`, each `(c,d)` to
`(c,a)`, each `(d,c)` to `(d,b)`, leaves every other edge unchanged in
place (same length, same order), and returns the list unchanged when no
edge matches any pattern. -/
theorem two_break_rewrite_amended (E : List (Int × Int)) (a b c d : Int)
    (hab : a ≠ b) (hac : a ≠ c) (had : a ≠ d)
    (hbc : b ≠ c) (hbd : b ≠ d) (hcd : c ≠ d) :
    (two_break_genome_graph E a b c d).length = E.length ∧
    (∀ i, i < E.length →
      (E.getD i (0, 0) = (a, b) →
        (two_break_genome_graph E a b c d).getD i (0, 0) = (a, c)) ∧
      (E.getD i (0, 0) = (b, a) →
        (two_break_genome_graph E a b c d).getD i (0, 0) = (b, d)) ∧
      (E.getD i (0, 0) = (c, d) →
        (two_break_genome_graph E a b c d).getD i (0, 0) = (c, a)) ∧
      (E.getD i (0, 0) = (d, c) →
        (two_break_genome_graph E a b c d).getD i (0, 0) = (d, b)) ∧
      (E.getD i (0, 0) ≠ (a, b) → E.getD i (0, 0) ≠ (b, a) →
        E.getD i (0, 0) ≠ (c, d) → E.getD i (0, 0) ≠ (d, c) →
        (two_break_genome_graph E a b c d).getD i (0, 0) = E.getD i (0, 0))) ∧
    ((∀ e ∈ E, e ≠ (a, b) ∧ e ≠ (b, a) ∧ e ≠ (c, d) ∧ e ≠ (d, c)) →
      two_break_genome_graph E a b c d = E) := by
  have pne : ∀ {x y z w : Int}, x ≠ z → ((x, y) : Int × Int) ≠ (z, w) := by
    intro x y z w hx heq
    exact hx (congrArg Prod.fst heq)
  refine ⟨by simp [two_break_genome_graph], ?_, ?_⟩
  · intro i hi
    have hi2 : i < (two_break_genome_graph E a b c d).length := by
      simpa [two_break_genome_graph] using hi
    have hmap : (two_break_genome_graph E a b c d).getD i (0, 0) =
        rewriteEdge a b c d (E.getD i (0, 0)) := by
      rw [List.getD_eq_getElem _ _ hi2, List.getD_eq_getElem _ _ hi]
      simp [two_break_genome_graph]
    rw [hmap]
    refine ⟨?_, ?_, ?_, ?_, ?_⟩
    · intro h1
      rw [h1]
      unfold rewriteEdge
      rw [if_pos rfl]
    · intro h1
      rw [h1]
      unfold rewriteEdge
      rw [if_neg (pne (Ne.symm hab)), if_pos rfl]
    · intro h1
      rw [h1]
      unfold rewriteEdge
      rw [if_neg (pne (Ne.symm hac)), if_neg (pne (Ne.symm hbc)), if_pos rfl]
    · intro h1
      rw [h1]
      unfold rewriteEdge
      rw [if_neg (pne (Ne.symm had)), if_neg (pne (Ne.symm hbd)),
        if_neg (pne (Ne.symm hcd)), if_pos rfl]
    · intro h1 h2 h3 h4
      unfold rewriteEdge
      rw [if_neg h1, if_neg h2, if_neg h3, if_neg h4]
  · intro hno
    have hid : ∀ e ∈ E, rewriteEdge a b c d e = e := by
      intro e he
      obtain ⟨h1, h2, h3, h4⟩ := hno e he
      unfold rewriteEdge
      rw [if_neg h1, if_neg h2, if_neg h3, if_neg h4]
    simp only [two_break_genome_graph]
    rw [List.map_congr_left hid]
    simp

/-- Witness for the amended C3 at `E = [(1,2),(3,4),(7,8)]`,
`a,b,c,d = 1,2,3,4` (length clause of the conclusion). -/
theorem two_break_rewrite_amended_witness :
    (two_break_genome_graph [(1, 2), (3, 4), (7, 8)] 1 2 3 4).length =
      ([(1, 2), (3, 4), (7, 8)] : List (Int × Int)).length :=
  (two_break_rewrite_amended [(1, 2), (3, 4), (7, 8)] 1 2 3 4
    (by decide) (by decide) (by decide) (by decide) (by decide) (by decide)).1

/-- C4: evaluating `two_break_genome_graph` at the input of its own
docstring example (src/utils/genome_graph.py lines 187-189).  The
docstring promises `[(1,3), (2,4)]`, but the edge `(3,4)` matches the
`(c,d)` pattern and is rewritten to `(c,a) = (3,1)`, so the code
returns `[(1,3), (3,1)]` — the code contradicts its own documentation. -/
theorem two_break_docstring_divergence :
    two_break_genome_graph [((1 : Int), (2 : Int)), (3, 4)] 1 2 3 4 =
        [(1, 3), (3, 1)] ∧
      ([((1 : Int), (3 : Int)), (3, 1)] : List (Int × Int)) ≠
        [(1, 3), (2, 4)] := by decide

/-- C6: for pairwise distinct nodes, applying the two-break with
`(a, b, c, d)` and then with `(a, c, b, d)` maps every originally
matched edge back to itself (position by position). -/
theorem two_break_inverse (E : List (Int × Int)) (a b c d : Int)
    (hab : a ≠ b) (hac : a ≠ c) (had : a ≠ d)
    (hbc : b ≠ c) (hbd : b ≠ d) (hcd : c ≠ d) :
    ∀ i, i < E.length →
      E.getD i (0, 0) ∈ ([(a, b), (b, a), (c, d), (d, c)] : List (Int × Int)) →
      (two_break_genome_graph (two_break_genome_graph E a b c d) a c b d).getD
          i (0, 0) = E.getD i (0, 0) := by
  have pne : ∀ {x y z w : Int}, x ≠ z → ((x, y) : Int × Int) ≠ (z, w) := by
    intro x y z w hx heq
    exact hx (congrArg Prod.fst heq)
  intro i hi hmem
  have hi2 : i < (two_break_genome_graph
      (two_break_genome_graph E a b c d) a c b d).length := by
    simpa [two_break_genome_graph] using hi
  have hmap : (two_break_genome_graph
      (two_break_genome_graph E a b c d) a c b d).getD i (0, 0) =
      rewriteEdge a c b d (rewriteEdge a b c d (E.getD i (0, 0))) := by
    rw [List.getD_eq_getElem _ _ hi2, List.getD_eq_getElem _ _ hi]
    simp [two_break_genome_graph]
  rw [hmap]
  simp only [List.mem_cons, List.not_mem_nil, or_false] at hmem
  rcases hmem with h | h | h | h <;> rw [h]
  · have s1 : rewriteEdge a b c d (a, b) = (a, c) := by
      unfold rewriteEdge
      rw [if_pos rfl]
    rw [s1]
    unfold rewriteEdge
    rw [if_pos rfl]
  · have s1 : rewriteEdge a b c d (b, a) = (b, d) := by
      unfold rewriteEdge
      rw [if_neg (pne (Ne.symm hab)), if_pos rfl]
    rw [s1]
    unfold rewriteEdge
    rw [if_neg (pne (Ne.symm hab)), if_neg (pne hbc), if_pos rfl]
  · have s1 : rewriteEdge a b c d (c, d) = (c, a) := by
      unfold rewriteEdge
      rw [if_neg (pne (Ne.symm hac)), if_neg (pne (Ne.symm hbc)), if_pos rfl]
    rw [s1]
    unfold rewriteEdge
    rw [if_neg (pne (Ne.symm hac)), if_pos rfl]
  · have s1 : rewriteEdge a b c d (d, c) = (d, b) := by
      unfold rewriteEdge
      rw [if_neg (pne (Ne.symm had)), if_neg (pne (Ne.symm hbd)),
        if_neg (pne (Ne.symm hcd)), if_pos rfl]
    rw [s1]
    unfold rewriteEdge
    rw [if_neg (pne (Ne.symm had)), if_neg (pne (Ne.symm hcd)),
      if_neg (pne (Ne.symm hbd)), if_pos rfl]

/-- Witness for C6 at `E = [(1,2)]`, `a,b,c,d = 1,2,3,4`, `i = 0`. -/
theorem two_break_inverse_witness :
    (two_break_genome_graph (two_break_genome_graph [(1, 2)] 1 2 3 4)
        1 3 2 4).getD 0 (0, 0) =
      ([((1 : Int), (2 : Int))] : List (Int × Int)).getD 0 (0, 0) :=
  two_break_inverse [(1, 2)] 1 2 3 4 (by decide) (by decide) (by decide)
    (by decide) (by decide) (by decide) 0 (by decide) (by decide)

/-- Embedding of the `while` loop of the legacy `GraphToGenome`
(src/FragileRegions.py lines 40-61).  The only difference from the
refactored loop is the non-closing branch: the legacy code executes
`init = Graph[i][0]` with no bounds check, so when the cursor runs past
the last edge mid-walk it raises `IndexError` (modelled as `none`).
The unreachable first `[]` arm is also `none`. -/
def legacyWalk : List (Int × Int) → Int → List Int → List (List Int) →
    Option (List (List Int))
  | [], _, _, _ => none
  | (u, v) :: rest, e, chrom, genome =>
      if v = e then
        match rest with
        | [] => some (genome ++ [chrom ++ [nodeGene u]])
        | (u2, _) :: _ =>
            legacyWalk rest (nodeEnd u2) [] (genome ++ [chrom ++ [nodeGene u]])
      else
        match rest with
        | [] => none
        | _ :: _ => legacyWalk rest e (chrom ++ [nodeGene u]) genome

/-- Embedding of `GraphToGenome` (src/FragileRegions.py lines 31-62):
`Graph[0][0]` raises `IndexError` on an empty graph (`none`); otherwise
run the walk. -/
def GraphToGenome (graph : List (Int × Int)) : Option (List (List Int)) :=
  match graph with
  | [] => none
  | (u, _) :: _ => legacyWalk graph (nodeEnd u) [] []

/-- C7 counterexample: on the graph `[(2,1), (4,6)]` the walk closes the
chromosome `[1]` at the first edge and then runs past the end without
reaching the closing node `3`; the refactored `graph_to_genome` does not
fail — it returns the partially reconstructed genome `[[1]]`, silently
discarding the in-progress chromosome. -/
theorem graph_to_genome_truncation_counterexample :
    graph_to_genome [(2, 1), (4, 6)] = [[1]] := by decide

/-- C7 amended: when the cursor runs past the end of the edge sequence
mid-walk, only the legacy `GraphToGenome` of `src/FragileRegions.py`
fails with an index error; the refactored `graph_to_genome` of
`src/utils/genome_graph.py` instead terminates normally, returning the
chromosomes completed so far and discarding the partial one — on
`[(2,1), (4,6)]` the legacy walk raises while the refactored one
returns `[[1]]`. -/
theorem graph_to_genome_truncation_amended :
    graph_to_genome [(2, 1), (4, 6)] = [[1]] ∧
      GraphToGenome [(2, 1), (4, 6)] = none := by decide

/-- Similarity ratio computed by `compare_genomes`
(src/genome_rearrangement/fragile_regions.py lines 146-173): the edge
lists are converted to sets, and line 172 divides
`len(common_edges)` by `max(len(edges1_set), len(edges2_set))` with no
zero guard — a zero maximum raises `ZeroDivisionError`, modelled as
`none`. -/
def compare_genomes_similarity (genome1 genome2 : List (List Int)) :
    Option ℚ :=
  let edges1_set := (colored_edges genome1).toFinset
  let edges2_set := (colored_edges genome2).toFinset
  let common_edges := edges1_set ∩ edges2_set
  if max edges1_set.card edges2_set.card = 0 then none
  else some ((common_edges.card : ℚ) / (max edges1_set.card edges2_set.card : ℚ))

/-- C9: at the failing input of two empty genomes both edge sets are
empty, `max(len(edges1_set), len(edges2_set)) = 0`, and the division on
line 172 raises `ZeroDivisionError` instead of returning the
special-cased ratio `0` the specification requires. -/
theorem compare_genomes_zero_division :
    compare_genomes_similarity [] [] = none := by decide

/-- Result dictionary of `validate_genome`
(src/genome_rearrangement/fragile_regions.py lines 176-221).  The early
return for an empty genome omits the `total_genes`/`unique_genes` keys,
modelled with `Option Nat`. -/
structure ValidationResult where
  valid : Bool
  errors : List String
  warnings : List String
  total_genes : Option Nat
  unique_genes : Option Nat

/-- Duplicate-gene scan of `validate_genome` (lines 198-205): walk the
genes in order with the list of genes seen so far; a gene whose
absolute value was already seen appends a duplicate-gene error. -/
def dupScan : List Int → List Int → List String
  | [], _ => []
  | g :: rest, seen =>
      (if g.natAbs ∈ seen.map Int.natAbs then
        ["Duplicate gene " ++ toString g.natAbs ++ " found"] else [])
        ++ dupScan rest (seen ++ [g])

/-- Embedding of `validate_genome`
(src/genome_rearrangement/fragile_regions.py lines 176-221). -/
def validate_genome (genome : List (List Int)) : ValidationResult :=
  if genome = [] then
    { valid := false, errors := ["Empty genome"], warnings := [],
      total_genes := none, unique_genes := none }
  else
    let warnings := (List.range genome.length).filterMap (fun i =>
      if genome.getD i [] = [] then
        some ("Empty chromosome at position " ++ toString i) else none)
    let all_genes := genome.flatten
    let dupErrors := dupScan all_genes []
    let zeroErrors := all_genes.filterMap (fun g =>
      if g = 0 then some "Gene with value 0 found (invalid)" else none)
    let errors := dupErrors ++ zeroErrors
    { valid := errors = [], errors := errors, warnings := warnings,
      total_genes := some all_genes.length,
      unique_genes := some (all_genes.map Int.natAbs).toFinset.card }

/-- Embedding of the validation gate of `GenomeAnalyzer.__init__`
(src/genome_rearrangement/fragile_regions.py lines 236-248): the
constructor raises `ValueError` (modelled as `none`) when validation
fails, and otherwise stores the genome. -/
def GenomeAnalyzer_init (genome : List (List Int)) :
    Option (List (List Int)) :=
  if (validate_genome genome).valid then some genome else none

/-- C10: for the empty genome, `validate_genome` returns
`valid = False` with exactly the error `"Empty genome"` — a fatal
error, not a warning — and constructing a `GenomeAnalyzer` on it
therefore raises the invalid-genome error. -/
theorem empty_genome_invalid :
    (validate_genome []).valid = false ∧
      (validate_genome []).errors = ["Empty genome"] ∧
      (validate_genome []).warnings = [] ∧
      GenomeAnalyzer_init [] = none :=
  ⟨rfl, rfl, rfl, rfl⟩
